import Mathlib

/-!
Shallow embedding of src/rope.py (rotary positional embeddings).

Tensors are modelled as a shape (list of dimension sizes) together with a
flat row-major data list, which matches the contiguous layout of every
tensor produced in the source file.  Operations that can raise in Python
(reshape with a size mismatch, broadcasting of incompatible shapes, tuple
unpacking of a shape of the wrong rank) return Option or Except, with
none / error modelling the raise.

Scalar arithmetic in the source is floating point; here it is carried out
over an arbitrary field, with the transcendental operations cos, sin and
the real power used for the frequency table abstracted as a ScalarOps
record, since the claims under study are about shapes and about which
values flow to the outputs.
-/

/-- A tensor: a shape and a flat row-major data list. -/
structure Tensor (α : Type) where
  shape : List ℕ
  data : List α
deriving DecidableEq, Repr

namespace Tensor

/-- Well-formedness: the data list has exactly as many elements as the
shape demands. -/
def wf (t : Tensor α) : Prop := t.data.length = t.shape.prod

instance (t : Tensor α) : Decidable t.wf := by
  unfold wf; infer_instance

/-- Model of the dtype cast query.float(): in an exact-arithmetic model a
cast to float32 does not change values, so it is the identity. -/
def float (t : Tensor α) : Tensor α := t

/-- Model of torch view on a contiguous tensor: the data is reinterpreted
under a new shape; raises (none) when the element counts differ. -/
def view (t : Tensor α) (s : List ℕ) : Option (Tensor α) :=
  if t.shape.prod = s.prod then some ⟨s, t.data⟩ else none

end Tensor

/-- Splits a list into the elements at even positions and the elements at
odd positions.  For a contiguous tensor whose last dimension is 2 these
are exactly the two slices produced by unbind on the last axis. -/
def deinterleave : List α → List α × List α
  | [] => ([], [])
  | [a] => ([a], [])
  | a :: b :: l => ((deinterleave l).1.cons a, (deinterleave l).2.cons b)

/-- Model of a, b = t.unbind(-1): succeeds only when the last dimension
is 2 (otherwise the Python tuple unpacking raises), and returns the two
tensors of the remaining shape holding the even- and odd-position
elements of the flat data. -/
def Tensor.unbind2 (t : Tensor α) : Option (Tensor α × Tensor α) :=
  if t.shape.getLastD 0 = 2 then
    some (⟨t.shape.dropLast, (deinterleave t.data).1⟩,
          ⟨t.shape.dropLast, (deinterleave t.data).2⟩)
  else none

/-- Model of t.unsqueeze(-1): append a size-1 axis; the flat data is
unchanged. -/
def Tensor.unsqueezeLast (t : Tensor α) : Tensor α :=
  ⟨t.shape ++ [1], t.data⟩

/-- Interleaves k chunks: alternately m elements from the first list and
n elements from the second.  This is the flat layout of torch.cat along
the last axis of two tensors with k leading blocks of sizes m and n. -/
def chunkInterleave (m n : ℕ) : ℕ → List α → List α → List α
  | 0, _, _ => []
  | k + 1, as, bs =>
      as.take m ++ bs.take n ++ chunkInterleave m n k (as.drop m) (bs.drop n)

/-- Model of torch.cat((a, b), dim=-1): requires the leading shapes to
agree, produces the concatenated last dimension with the data blocks of
the two inputs interleaved. -/
def tcatLast (a b : Tensor α) : Option (Tensor α) :=
  if a.shape.dropLast = b.shape.dropLast then
    let m := a.shape.getLastD 0
    let n := b.shape.getLastD 0
    some ⟨a.shape.dropLast ++ [m + n],
          chunkInterleave m n a.shape.dropLast.prod a.data b.data⟩
  else none

/-- Model of t.flatten(start_dim=0, end_dim=-3): merge all axes except
the last two into one; the flat data is unchanged. -/
def Tensor.flatten0m3 (t : Tensor α) : Tensor α :=
  let n := t.shape.length
  ⟨(t.shape.take (n - 2)).prod :: t.shape.drop (n - 2), t.data⟩

/-- Model of t.reshape(t.shape[:-1] + (-1, 2)): the -1 is inferred as
numel divided by the product of the known sizes; raises (none) when that
product is zero (the inference is ambiguous) or does not divide numel. -/
def Tensor.reshapeInferLast2 (t : Tensor α) : Option (Tensor α) :=
  let base := t.shape.dropLast
  let known := base.prod * 2
  if known = 0 then none
  else if known ∣ t.shape.prod then
    some ⟨base ++ [t.shape.prod / known, 2], t.data⟩
  else none

/-- Broadcast two shapes given in reversed (trailing-first) order: sizes
are compatible when equal or when either is 1, and the result keeps the
non-1 size. -/
def bcastRev : List ℕ → List ℕ → Option (List ℕ)
  | [], ys => some ys
  | x :: xs, [] => some (x :: xs)
  | x :: xs, y :: ys =>
      match bcastRev xs ys with
      | none => none
      | some r =>
          if x = y ∨ x = 1 ∨ y = 1 then some ((if x = 1 then y else x) :: r)
          else none

/-- PyTorch broadcast of two shapes, aligning from the right; none
models the raised RuntimeError on incompatible sizes. -/
def broadcastShape (s₁ s₂ : List ℕ) : Option (List ℕ) :=
  (bcastRev s₁.reverse s₂.reverse).map List.reverse

/-- Decode a flat row-major index into a multi-index for a shape. -/
def unflatten : List ℕ → ℕ → List ℕ
  | [], _ => []
  | _ :: ds, i => i / ds.prod :: unflatten ds (i % ds.prod)

/-- Encode a multi-index into a flat row-major index. -/
def flattenIdx : List ℕ → List ℕ → ℕ
  | [], _ => 0
  | _ :: _, [] => 0
  | _ :: ds, c :: cs => c * ds.prod + flattenIdx ds cs

/-- Project a multi-index of the broadcast result onto an operand: keep
the trailing coordinates and clamp to 0 along the axes the operand is
broadcast over (size 1). -/
def projIdx (shape ix : List ℕ) : List ℕ :=
  List.zipWith (fun d c => if d = 1 then 0 else c) shape
    (ix.drop (ix.length - shape.length))

/-- Read an element at a multi-index (0 when out of range). -/
def Tensor.get0 [Zero α] (t : Tensor α) (ix : List ℕ) : α :=
  t.data.getD (flattenIdx t.shape ix) 0

/-- Element-wise binary operation with PyTorch broadcasting; none models
the raise on incompatible shapes. -/
def tbinop [Zero α] (f : α → α → α) (a b : Tensor α) : Option (Tensor α) :=
  match broadcastShape a.shape b.shape with
  | none => none
  | some s =>
      some ⟨s, (List.range s.prod).map fun i =>
        f (a.get0 (projIdx a.shape (unflatten s i)))
          (b.get0 (projIdx b.shape (unflatten s i)))⟩

/-- Element-wise product with broadcasting. -/
def tmul [Zero α] [Mul α] (a b : Tensor α) : Option (Tensor α) :=
  tbinop (· * ·) a b

/-- Element-wise sum with broadcasting. -/
def tadd [Zero α] [Add α] (a b : Tensor α) : Option (Tensor α) :=
  tbinop (· + ·) a b

/-- Element-wise difference with broadcasting. -/
def tsub [Zero α] [Sub α] (a b : Tensor α) : Option (Tensor α) :=
  tbinop (· - ·) a b

/-- The scalar operations the source delegates to the tensor library:
cosine, sine, and the power with a rational exponent used to build the
frequency table theta ** (-2 d / head_dim). -/
structure ScalarOps (α : Type) where
  rcos : α → α
  rsin : α → α
  rpow : α → ℚ → α

/-- The inner helper of apply_rotary_emb.  For positions p in
[0, seq_len) and dimension indices d in [0, hd), the angle is
p * theta ** (-2 d / hd); the function returns the cosine table and the
sine table, both of shape (seq_len, hd).  The captured theta of the
Python closure is passed explicitly. -/
def calculate_rotary_embedding_angles [Field α] (ops : ScalarOps α)
    (theta : α) (seq_len hd : ℕ) : Tensor α × Tensor α :=
  let angles : List α :=
    (List.range seq_len).flatMap fun p =>
      (List.range hd).map fun d =>
        (p : α) * ops.rpow theta (-(2 * (d : ℚ)) / (hd : ℚ))
  (⟨[seq_len, hd], angles.map ops.rcos⟩,
   ⟨[seq_len, hd], angles.map ops.rsin⟩)

/-- The rotated pair of lines 85-88 of the source for one of the two
input tensors: out_real = cos * real - sin * imag and
out_imag = sin * real + cos * imag, with broadcasting at every step. -/
def rotateHalves [Field α] (cos sin real imag : Tensor α) :
    Option (Tensor α × Tensor α) :=
  (tmul cos real).bind fun a₁ =>
  (tmul sin imag).bind fun a₂ =>
  (tsub a₁ a₂).bind fun out_real =>
  (tmul sin real).bind fun b₁ =>
  (tmul cos imag).bind fun b₂ =>
  (tadd b₁ b₂).bind fun out_imag =>
  some (out_real, out_imag)

/-- Lines 96-97 (and 100-101) of the source: unsqueeze the two slices,
concatenate along the last axis, flatten all but the last two axes and
view the result under the original shape. -/
def recombineHalves (real imag : Tensor α) (origShape : List ℕ) :
    Option (Tensor α) :=
  (tcatLast real.unsqueezeLast imag.unsqueezeLast).bind fun c =>
  c.flatten0m3.view origShape

/-- Shallow embedding of apply_rotary_emb from src/rope.py, preserving
the order of the tensor operations of the source.  The four rotated
tensors are computed (and can raise) exactly as in the source, and like
in the source their values do not reach the returned pair: the outputs
re-interleave the unrotated real and imaginary slices. -/
def apply_rotary_emb [Field α] (ops : ScalarOps α) (query key : Tensor α)
    (head_dim max_seq_len : ℕ) (theta : α) : Option (Tensor α × Tensor α) :=
  match query.shape with
  | [_, seqlen, _, _] =>
      ((Tensor.float query).reshapeInferLast2).bind fun qpair =>
      qpair.unbind2.bind fun qri =>
      ((Tensor.float key).reshapeInferLast2).bind fun kpair =>
      kpair.unbind2.bind fun kri =>
      let query_real := qri.1
      let query_imag := qri.2
      let key_real := kri.1
      let key_imag := kri.2
      let hd2 := query_real.shape.getD (query_real.shape.length - 2) 0
      let cs := calculate_rotary_embedding_angles ops theta seqlen hd2
      (rotateHalves cs.1 cs.2 query_real query_imag).bind fun _query_rotated =>
      (rotateHalves cs.1 cs.2 key_real key_imag).bind fun _key_rotated =>
      (recombineHalves query_real query_imag query.shape).bind fun query_out =>
      (recombineHalves key_real key_imag key.shape).bind fun key_out =>
      some (query_out, key_out)
  | _ => none

/-- The two failure modes of reshape_for_broadcast: a failed assert, and
a RuntimeError raised by the final view. -/
inductive RopeErr where
  | assertionError
  | runtimeError
deriving DecidableEq, Repr

/-- Shallow embedding of reshape_for_broadcast from src/rope.py: assert
that x has more than one axis and that the frequency tensor has shape
(x.shape[1], x.shape[-1]), then view it under the shape that keeps axes
1 and -1 of x and is 1 elsewhere. -/
def reshape_for_broadcast (freqs_cis x : Tensor α) : Except RopeErr (Tensor α) :=
  let ndim := x.shape.length
  if ¬ (0 ≤ 1 ∧ 1 < ndim) then .error .assertionError
  else if ¬ (freqs_cis.shape = [x.shape.getD 1 0, x.shape.getLastD 0]) then
    .error .assertionError
  else
    let shape := (List.enum x.shape).map fun p =>
      if p.1 = 1 ∨ p.1 = ndim - 1 then p.2 else 1
    match freqs_cis.view shape with
    | some t => .ok t
    | none => .error .runtimeError

/-- Concrete scalar operations over the rationals used to instantiate
witnesses; the theorems hold for every choice of ScalarOps. -/
def opsQ : ScalarOps ℚ :=
  { rcos := fun _ => 1, rsin := fun _ => 0, rpow := fun _ _ => 1 }

/-! ### Helper lemmas about the tensor operations -/

lemma chunkInterleave_deinterleave (k : ℕ) :
    ∀ l : List α, l.length = 2 * k →
      chunkInterleave 1 1 k (deinterleave l).1 (deinterleave l).2 = l := by
  induction k with
  | zero =>
      intro l h
      have : l = [] := List.length_eq_zero.mp (by omega)
      subst this; rfl
  | succ n ih =>
      intro l h
      match l with
      | [] => simp at h
      | [a] => simp at h; omega
      | a :: b :: t =>
          have ht : t.length = 2 * n := by
            simp [List.length_cons] at h; omega
          simp only [deinterleave, chunkInterleave, List.take_succ_cons,
            List.take_zero, List.drop_succ_cons, List.drop_zero, List.cons.injEq]
          simpa using ih t ht

lemma reshapeInferLast2_spec {t tp : Tensor α} (h : t.reshapeInferLast2 = some tp) :
    tp.shape = t.shape.dropLast ++ [t.shape.prod / (t.shape.dropLast.prod * 2), 2]
    ∧ tp.data = t.data
    ∧ t.shape.dropLast.prod ≠ 0
    ∧ t.shape.prod
        = t.shape.dropLast.prod * 2 * (t.shape.prod / (t.shape.dropLast.prod * 2)) := by
  simp only [Tensor.reshapeInferLast2] at h
  split_ifs at h with h₀ h₁
  · injection h with h
    subst h
    refine ⟨rfl, rfl, fun hc => h₀ (by simp [hc]), ?_⟩
    exact (Nat.mul_div_cancel' h₁).symm

lemma unbind2_eq {t : Tensor α} (h2 : t.shape.getLastD 0 = 2) :
    t.unbind2 = some (⟨t.shape.dropLast, (deinterleave t.data).1⟩,
                      ⟨t.shape.dropLast, (deinterleave t.data).2⟩) := by
  unfold Tensor.unbind2
  rw [if_pos h2]

lemma getLastD_append_pair (l : List ℕ) (a b d : ℕ) :
    (l ++ [a, b]).getLastD d = b := by
  have h : l ++ [a, b] = (l ++ [a]) ++ [b] := by simp
  rw [h, List.getLastD_concat]

lemma dropLast_append_pair (l : List ℕ) (a b : ℕ) :
    (l ++ [a, b]).dropLast = l ++ [a] := by
  have h : l ++ [a, b] = (l ++ [a]) ++ [b] := by simp
  rw [h, List.dropLast_concat]

lemma flatten0m3_shape (s₁ s₂ : List ℕ) (hs₂ : s₂.length = 2) (d : List α) :
    (⟨s₁ ++ s₂, d⟩ : Tensor α).flatten0m3 = ⟨s₁.prod :: s₂, d⟩ := by
  unfold Tensor.flatten0m3
  simp only
  have h : (s₁ ++ s₂).length - 2 = s₁.length := by
    simp [List.length_append, hs₂]
  rw [h, List.take_left, List.drop_left]

/-- The re-interleaving tail of apply_rotary_emb undoes the split into
even and odd components: applied to the two slices obtained from the
pair-reshape of a well-formed tensor, it rebuilds that tensor. -/
lemma recombineHalves_reconstruct {t tp : Tensor α} (hwf : t.wf)
    (hr : t.reshapeInferLast2 = some tp) :
    recombineHalves ⟨tp.shape.dropLast, (deinterleave t.data).1⟩
      ⟨tp.shape.dropLast, (deinterleave t.data).2⟩ t.shape = some t := by
  obtain ⟨hsh, hdata, hbase, hprod⟩ := reshapeInferLast2_spec hr
  set base := t.shape.dropLast with hb
  set D := t.shape.prod / (base.prod * 2) with hD
  have hdrop : tp.shape.dropLast = base ++ [D] := by
    rw [hsh, dropLast_append_pair]
  rw [hdrop]
  have hlen : t.data.length = 2 * ((base ++ [D]).prod) := by
    rw [hwf, hprod]
    simp [List.prod_append]
    ring
  have hchunk := chunkInterleave_deinterleave ((base ++ [D]).prod) t.data hlen
  have hcat : tcatLast
      (Tensor.unsqueezeLast ⟨base ++ [D], (deinterleave t.data).1⟩)
      (Tensor.unsqueezeLast ⟨base ++ [D], (deinterleave t.data).2⟩)
      = some ⟨(base ++ [D]) ++ [1 + 1], t.data⟩ := by
    unfold tcatLast Tensor.unsqueezeLast
    simp only [List.dropLast_concat, List.getLastD_concat, if_pos rfl, if_true]
    rw [hchunk]
  have happ2 : (base ++ [D]) ++ [1 + 1] = base ++ [D, 1 + 1] := by simp
  have hfv : (⟨(base ++ [D]) ++ [1 + 1], t.data⟩ : Tensor α).flatten0m3.view t.shape
      = some t := by
    rw [happ2, flatten0m3_shape base [D, 1 + 1] (by simp) t.data]
    unfold Tensor.view
    rw [if_pos ?hc]
    case hc =>
      simp only [List.prod_cons, List.prod_nil]
      rw [hprod]
      ring
  unfold recombineHalves
  rw [hcat, Option.some_bind, hfv]

/-- Core identity property of the embedded apply_rotary_emb: whenever it
returns, the returned tensors are exactly the (float-cast) inputs,
because the outputs are rebuilt from the unrotated slices. -/
lemma apply_rotary_emb_eq_inputs [Field α] {ops : ScalarOps α}
    {q k : Tensor α} {hd m : ℕ} {θ : α} {qo ko : Tensor α}
    (hwq : q.wf) (hwk : k.wf)
    (h : apply_rotary_emb ops q k hd m θ = some (qo, ko)) :
    qo = q ∧ ko = k := by
  unfold apply_rotary_emb at h
  split at h
  case h_2 => exact absurd h (by simp)
  case h_1 x₁ seqlen x₂ x₃ heq =>
    rw [Option.bind_eq_some] at h
    obtain ⟨qpair, hqp, h⟩ := h
    rw [Option.bind_eq_some] at h
    obtain ⟨qri, hqu, h⟩ := h
    rw [Option.bind_eq_some] at h
    obtain ⟨kpair, hkp, h⟩ := h
    rw [Option.bind_eq_some] at h
    obtain ⟨kri, hku, h⟩ := h
    simp only [Option.bind_eq_some] at h
    obtain ⟨_qrot, _, _krot, _, qout, hqo, kout, hko, hfin⟩ := h
    have hspecq := @reshapeInferLast2_spec _ q qpair hqp
    have hspeck := @reshapeInferLast2_spec _ k kpair hkp
    have h2q : qpair.shape.getLastD 0 = 2 := by
      rw [hspecq.1, getLastD_append_pair]
    have h2k : kpair.shape.getLastD 0 = 2 := by
      rw [hspeck.1, getLastD_append_pair]
    rw [unbind2_eq h2q] at hqu
    rw [unbind2_eq h2k] at hku
    injection hqu with hqu
    injection hku with hku
    subst hqu
    subst hku
    simp only at hqo hko
    rw [hspecq.2.1] at hqo
    rw [hspeck.2.1] at hko
    have hrecq := @recombineHalves_reconstruct _ q qpair hwq hqp
    have hreck := @recombineHalves_reconstruct _ k kpair hwk hkp
    rw [hrecq] at hqo
    rw [hreck] at hko
    injection hqo with hqo
    injection hko with hko
    injection hfin with hfin
    injection hfin with hf₁ hf₂
    subst hf₁
    subst hf₂
    exact ⟨hqo.symm, hko.symm⟩

/-- When the trailing dimension is literally 2 and the leading sizes are
nonzero, the pair-reshape succeeds and the inferred -1 size is 1. -/
lemma reshapeInferLast2_of_double {t : Tensor α} {s : List ℕ}
    (h : t.shape = s ++ [2]) (hs : s.prod ≠ 0) :
    t.reshapeInferLast2 = some ⟨s ++ [1, 2], t.data⟩ := by
  simp only [Tensor.reshapeInferLast2, h, List.dropLast_concat]
  rw [if_neg (by simpa using hs)]
  rw [if_pos (by simp [List.prod_append])]
  have hq : (s ++ [2]).prod / (s.prod * 2) = 1 := by
    have : (s ++ [2]).prod = s.prod * 2 := by simp [List.prod_append]
    rw [this, Nat.div_self (by omega)]
  rw [hq]

lemma bcastRev_self (l : List ℕ) : bcastRev l l = some l := by
  induction l with
  | nil => rfl
  | cons x xs ih => simp [bcastRev, ih]

lemma broadcastShape_self (s : List ℕ) : broadcastShape s s = some s := by
  simp [broadcastShape, bcastRev_self]

lemma tbinop_some [Zero α] (f : α → α → α) (a b : Tensor α) (s : List ℕ)
    (h : broadcastShape a.shape b.shape = some s) :
    ∃ c : Tensor α, tbinop f a b = some c ∧ c.shape = s := by
  refine ⟨⟨s, (List.range s.prod).map fun i =>
    f (a.get0 (projIdx a.shape (unflatten s i)))
      (b.get0 (projIdx b.shape (unflatten s i)))⟩, ?_, rfl⟩
  simp only [tbinop, h]

/-- The rotation step succeeds as soon as the cosine table broadcasts
against the real slice, the sine table having the same shape as the
cosine table and the imaginary slice the same shape as the real one. -/
lemma rotateHalves_some [Field α] (cos sin real imag : Tensor α) (s : List ℕ)
    (hs : sin.shape = cos.shape) (hi : imag.shape = real.shape)
    (h : broadcastShape cos.shape real.shape = some s) :
    ∃ p, rotateHalves cos sin real imag = some p := by
  obtain ⟨a₁, ha₁, ha₁s⟩ := tbinop_some (· * ·) cos real s h
  obtain ⟨a₂, ha₂, ha₂s⟩ := tbinop_some (· * ·) sin imag s (by rw [hs, hi]; exact h)
  obtain ⟨a₃, ha₃, _⟩ := tbinop_some (· - ·) a₁ a₂ s
    (by rw [ha₁s, ha₂s]; exact broadcastShape_self s)
  obtain ⟨b₁, hb₁, hb₁s⟩ := tbinop_some (· * ·) sin real s (by rw [hs]; exact h)
  obtain ⟨b₂, hb₂, hb₂s⟩ := tbinop_some (· * ·) cos imag s (by rw [hi]; exact h)
  obtain ⟨b₃, hb₃, _⟩ := tbinop_some (· + ·) b₁ b₂ s
    (by rw [hb₁s, hb₂s]; exact broadcastShape_self s)
  refine ⟨(a₃, b₃), ?_⟩
  unfold rotateHalves tmul tsub tadd
  rw [ha₁, Option.some_bind, ha₂, Option.some_bind, ha₃, Option.some_bind,
    hb₁, Option.some_bind, hb₂, Option.some_bind, hb₃, Option.some_bind]

/-- The cosine table of a single position broadcasts against any slice
of shape b :: 1 :: h :: [1]. -/
lemma broadcastShape_onerow (n b h : ℕ) :
    ∃ s, broadcastShape [1, n] [b, 1, h, 1] = some s := by
  refine ⟨[b, 1, h, if n = 1 then 1 else n], ?_⟩
  simp [broadcastShape, bcastRev]

/-- For sequence length 1 and head_dim 2 the embedded apply_rotary_emb
returns, and by the identity property it returns the inputs themselves. -/
lemma apply_rotary_emb_seqlen_one [Field α] (ops : ScalarOps α)
    {q k : Tensor α} {B H Hk : ℕ} (hB : B ≠ 0) (hH : H ≠ 0) (hHk : Hk ≠ 0)
    (hq : q.shape = [B, 1, H, 2]) (hk : k.shape = [B, 1, Hk, 2])
    (hwq : q.wf) (hwk : k.wf) (m : ℕ) (θ : α) :
    apply_rotary_emb ops q k 2 m θ = some (q, k) := by
  have hrq : (Tensor.float q).reshapeInferLast2
      = some ⟨[B, 1, H] ++ [1, 2], q.data⟩ :=
    reshapeInferLast2_of_double (by simp [Tensor.float, hq])
      (by simp [hB, hH])
  have hrk : (Tensor.float k).reshapeInferLast2
      = some ⟨[B, 1, Hk] ++ [1, 2], k.data⟩ :=
    reshapeInferLast2_of_double (by simp [Tensor.float, hk])
      (by simp [hB, hHk])
  have h2q : (⟨[B, 1, H] ++ [1, 2], q.data⟩ : Tensor α).shape.getLastD 0 = 2 := rfl
  have h2k : (⟨[B, 1, Hk] ++ [1, 2], k.data⟩ : Tensor α).shape.getLastD 0 = 2 := rfl
  have hrecq := @recombineHalves_reconstruct _ q _ hwq hrq
  have hreck := @recombineHalves_reconstruct _ k _ hwk hrk
  rw [hq] at hrecq
  obtain ⟨s₁, hs₁⟩ := broadcastShape_onerow H B H
  obtain ⟨s₂, hs₂⟩ := broadcastShape_onerow H B Hk
  have hc₁ : broadcastShape (calculate_rotary_embedding_angles ops θ 1 H).1.shape
      (⟨([B, 1, H] ++ [1, 2] : List ℕ).dropLast, (deinterleave q.data).1⟩
        : Tensor α).shape = some s₁ := hs₁
  have hc₂ : broadcastShape (calculate_rotary_embedding_angles ops θ 1 H).1.shape
      (⟨([B, 1, Hk] ++ [1, 2] : List ℕ).dropLast, (deinterleave k.data).1⟩
        : Tensor α).shape = some s₂ := hs₂
  obtain ⟨p₁, hp₁⟩ := rotateHalves_some
    (calculate_rotary_embedding_angles ops θ 1 H).1
    (calculate_rotary_embedding_angles ops θ 1 H).2
    ⟨([B, 1, H] ++ [1, 2] : List ℕ).dropLast, (deinterleave q.data).1⟩
    ⟨([B, 1, H] ++ [1, 2] : List ℕ).dropLast, (deinterleave q.data).2⟩
    s₁ rfl rfl hc₁
  obtain ⟨p₂, hp₂⟩ := rotateHalves_some
    (calculate_rotary_embedding_angles ops θ 1 H).1
    (calculate_rotary_embedding_angles ops θ 1 H).2
    ⟨([B, 1, Hk] ++ [1, 2] : List ℕ).dropLast, (deinterleave k.data).1⟩
    ⟨([B, 1, Hk] ++ [1, 2] : List ℕ).dropLast, (deinterleave k.data).2⟩
    s₂ rfl rfl hc₂
  unfold apply_rotary_emb
  rw [hq]
  split
  case h_2 hno => exact absurd rfl (hno B 1 H 2)
  case h_1 x₁ seqlen x₂ x₃ heq =>
    injection heq with e₁ heq
    injection heq with e₂ heq
    injection heq with e₃ heq
    injection heq with e₄ heq
    subst e₁; subst e₂; subst e₃; subst e₄
    simp only [hrq, hrk, Option.some_bind]
    simp only [unbind2_eq h2q, unbind2_eq h2k, Option.some_bind]
    exact Option.bind_eq_some.mpr ⟨p₁, hp₁,
      Option.bind_eq_some.mpr ⟨p₂, hp₂,
      Option.bind_eq_some.mpr ⟨q, hrecq,
      Option.bind_eq_some.mpr ⟨k, hreck, rfl⟩⟩⟩⟩

/-- Axes of index at least 2 that are not the last axis are collapsed to
size 1 by the broadcast-shape computation. -/
lemma enumFrom_map_ones (xl n : ℕ) :
    ∀ (mid : List ℕ) (j : ℕ), 1 < j → n = j + mid.length + 1 →
      ((mid ++ [xl]).enumFrom j).map
          (fun p => if p.1 = 1 ∨ p.1 = n - 1 then p.2 else 1)
        = mid.map (fun _ => 1) ++ [xl] := by
  intro mid
  induction mid with
  | nil =>
      intro j hj hn
      simp only [List.length_nil] at hn
      have hlast : j = n - 1 := by omega
      simp [List.enumFrom_cons, hlast]
  | cons m mid ih =>
      intro j hj hn
      simp only [List.length_cons] at hn
      have hj1 : j ≠ 1 := by omega
      have hjn : j ≠ n - 1 := by omega
      simp only [List.cons_append, List.enumFrom_cons, List.map_cons,
        hj1, hjn, or_self, if_false]
      have hres := ih (j + 1) (by omega) (by omega)
      rw [hres]

/-- The collapsed broadcast shape of a rank-three-or-more tensor,
written out: 1, then axis 1 of x, then 1 everywhere up to the final
axis of x. -/
lemma enum_map_collapse (x₀ x₁ xl : ℕ) (mid : List ℕ) :
    ((x₀ :: x₁ :: (mid ++ [xl])).enum).map
      (fun p => if p.1 = 1 ∨ p.1 = (x₀ :: x₁ :: (mid ++ [xl])).length - 1
        then p.2 else 1)
      = 1 :: x₁ :: (mid.map (fun _ => 1) ++ [xl]) := by
  have hlen : (x₀ :: x₁ :: (mid ++ [xl])).length = mid.length + 3 := by simp
  rw [hlen]
  rw [List.enum, List.enumFrom_cons, List.enumFrom_cons]
  simp only [List.map_cons]
  rw [if_neg (by omega)]
  have hres := enumFrom_map_ones xl (mid.length + 3) mid (0 + 1 + 1)
    (by omega) (by omega)
  rw [hres]
  simp

/-- Under the precondition and for a tensor x of rank at least 3 the
broadcast helper succeeds, returning the frequency data viewed under the
collapsed shape. -/
lemma reshape_for_broadcast_ok {freqs x : Tensor α}
    (h3 : 3 ≤ x.shape.length)
    (hsh : freqs.shape = [x.shape.getD 1 0, x.shape.getLastD 0]) :
    reshape_for_broadcast freqs x
      = Except.ok ⟨(List.enum x.shape).map
          (fun p => if p.1 = 1 ∨ p.1 = x.shape.length - 1 then p.2 else 1),
          freqs.data⟩ := by
  obtain ⟨x₀, x₁, sh₂, hx2⟩ : ∃ x₀ x₁ sh₂, x.shape = x₀ :: x₁ :: sh₂ := by
    rcases hxs0 : x.shape with _ | ⟨x₀, tl⟩
    · rw [hxs0] at h3; simp at h3
    · rcases htl : tl with _ | ⟨x₁, sh₂⟩
      · rw [hxs0, htl] at h3; simp at h3
      · exact ⟨x₀, x₁, sh₂, rfl⟩
  obtain ⟨mid, xl, hmid⟩ : ∃ mid xl, sh₂ = mid ++ [xl] := by
    rcases List.eq_nil_or_concat sh₂ with hnil | ⟨L, b, hL⟩
    · rw [hx2, hnil] at h3; simp at h3
    · exact ⟨L, b, by simpa [List.concat_eq_append] using hL⟩
  have hxs : x.shape = x₀ :: x₁ :: (mid ++ [xl]) := by rw [hx2, hmid]
  have hget1 : x.shape.getD 1 0 = x₁ := by rw [hxs]; rfl
  have hlastget : x.shape.getLastD 0 = xl := by
    rw [hxs]
    have h : x₀ :: x₁ :: (mid ++ [xl]) = (x₀ :: x₁ :: mid) ++ [xl] := by simp
    rw [h, List.getLastD_concat]
  have hview : freqs.view ((List.enum x.shape).map
      (fun p => if p.1 = 1 ∨ p.1 = x.shape.length - 1 then p.2 else 1))
      = some ⟨(List.enum x.shape).map
          (fun p => if p.1 = 1 ∨ p.1 = x.shape.length - 1 then p.2 else 1),
          freqs.data⟩ := by
    unfold Tensor.view
    have hcnd : freqs.shape.prod = ((List.enum x.shape).map
        (fun p => if p.1 = 1 ∨ p.1 = x.shape.length - 1 then p.2 else 1)).prod := by
      conv_rhs => rw [hxs]
      rw [enum_map_collapse, hsh, hget1, hlastget]
      simp only [List.prod_cons, List.prod_append, List.prod_nil]
      have hone : (mid.map (fun _ => (1 : ℕ))).prod = 1 :=
        List.prod_eq_one (by simp)
      rw [hone]
      ring
    rw [if_pos hcnd]
  simp only [reshape_for_broadcast]
  rw [if_neg (by simp only [not_not]; refine ⟨by omega, by omega⟩)]
  rw [if_neg (by simp only [not_not]; exact hsh)]
  rw [hview]

/-- The broadcast helper produces an AssertionError exactly when one of
its two asserts fails: x has fewer than two axes, or the frequency shape
differs from (x.shape[1], x.shape[-1]). -/
lemma reshape_for_broadcast_assertion_iff (freqs x : Tensor α) :
    reshape_for_broadcast freqs x = Except.error RopeErr.assertionError
      ↔ (x.shape.length < 2
          ∨ freqs.shape ≠ [x.shape.getD 1 0, x.shape.getLastD 0]) := by
  simp only [reshape_for_broadcast]
  by_cases hlen : 1 < x.shape.length
  · rw [if_neg (by simp only [not_not]; exact ⟨by omega, hlen⟩)]
    by_cases hsh : freqs.shape = [x.shape.getD 1 0, x.shape.getLastD 0]
    · rw [if_neg (by simp only [not_not]; exact hsh)]
      constructor
      · intro hcontra
        exfalso
        rcases hv : freqs.view ((List.enum x.shape).map
            (fun p => if p.1 = 1 ∨ p.1 = x.shape.length - 1 then p.2 else 1))
          with _ | t
        · rw [hv] at hcontra
          simp at hcontra
        · rw [hv] at hcontra
          simp at hcontra
      · intro hr
        exfalso
        rcases hr with hr | hr
        · omega
        · exact hr hsh
    · rw [if_pos (by simpa using hsh)]
      constructor
      · intro _
        exact Or.inr hsh
      · intro _
        rfl
  · rw [if_pos (by intro hc; exact hlen hc.2)]
    constructor
    · intro _
      exact Or.inl (by omega)
    · intro _
      rfl

/-! ### Claim theorems -/

/-- C1: the claim states that apply_rotary_emb returns, for each adjacent
feature pair, the 2D rotation cos a * re - sin a * im and
sin a * re + cos a * im.  The code computes those rotated tensors but
never uses them; this theorem evaluates the code at a failing input: a
query of shape (1, 2, 1, 2) with pair (1, 0) at position 1 is returned
unchanged, for every choice of the scalar operations, while the claimed
rotation at position 1 (angle 1 since the frequency for the single pair
is theta to the power 0) is (cos 1, sin 1), which differs from (1, 0) in
real arithmetic. -/
theorem C1_apply_returns_unrotated (ops : ScalarOps ℚ) (theta : ℚ) (m : ℕ) :
    apply_rotary_emb ops ⟨[1, 2, 1, 2], [1, 0, 1, 0]⟩
      ⟨[1, 2, 1, 2], [1, 0, 1, 0]⟩ 2 m theta
      = some (⟨[1, 2, 1, 2], [1, 0, 1, 0]⟩, ⟨[1, 2, 1, 2], [1, 0, 1, 0]⟩) := rfl

/-- C2: whenever apply_rotary_emb returns on well-formed inputs, the
returned pair is value-equal to the float-cast inputs: the rotated
components are computed but never reach the outputs, so the function is
the identity on values. -/
theorem C2_apply_is_identity [Field α] (ops : ScalarOps α)
    (q k qo ko : Tensor α) (hd m : ℕ) (θ : α) (hwq : q.wf) (hwk : k.wf)
    (h : apply_rotary_emb ops q k hd m θ = some (qo, ko)) :
    qo = Tensor.float q ∧ ko = Tensor.float k :=
  apply_rotary_emb_eq_inputs hwq hwk h

theorem C2_witness :
    (⟨[1, 1, 1, 2], [(1 : ℚ), 2]⟩ : Tensor ℚ)
        = Tensor.float ⟨[1, 1, 1, 2], [(1 : ℚ), 2]⟩
    ∧ (⟨[1, 1, 1, 2], [(3 : ℚ), 4]⟩ : Tensor ℚ)
        = Tensor.float ⟨[1, 1, 1, 2], [(3 : ℚ), 4]⟩ :=
  C2_apply_is_identity opsQ ⟨[1, 1, 1, 2], [(1 : ℚ), 2]⟩
    ⟨[1, 1, 1, 2], [(3 : ℚ), 4]⟩ ⟨[1, 1, 1, 2], [(1 : ℚ), 2]⟩
    ⟨[1, 1, 1, 2], [(3 : ℚ), 4]⟩ 2 4 10000 (by decide) (by decide) rfl

/-- C3: the claim states the frequency tables are indexed by the pair
count D = head_dim / 2 with exponent divisor head_dim, so cos and sin
have shape (seq_len, D).  The code calls the angle helper with
query_real.shape[-2], which is the number of heads: for a query of shape
(1, 1, 3, 4), where D = 2, the tables computed by the code have shape
(1, 3) (sequence length 1, head count 3) instead of (1, 2), and the
subsequent broadcast against the (1, 1, 3, 2) slice raises, so
apply_rotary_emb returns none, for every choice of scalar operations. -/
theorem C3_freq_table_uses_head_count (ops : ScalarOps ℚ) (theta : ℚ) (m : ℕ) :
    (calculate_rotary_embedding_angles ops theta 1 3).1.shape = [1, 3]
    ∧ (calculate_rotary_embedding_angles ops theta 1 3).2.shape = [1, 3]
    ∧ apply_rotary_emb ops ⟨[1, 1, 3, 4], List.replicate 12 0⟩
        ⟨[1, 1, 3, 4], List.replicate 12 0⟩ 4 m theta = none :=
  ⟨rfl, rfl, rfl⟩

/-- C4: the claim states apply_rotary_emb never raises on rank-4 inputs
with even head_dim, in particular for head_dim 2 with any batch size,
sequence length and head count.  The code raises: on query and key of
shape (1, 2, 3, 2) the cosine table has shape (2, 3) (sequence length 2,
head count 3) and broadcasting it against the (1, 2, 3, 1) real slice
fails, so the embedded function returns none, for every choice of the
scalar operations. -/
theorem C4_raises_on_valid_input (ops : ScalarOps ℚ) (theta : ℚ) (m : ℕ) :
    apply_rotary_emb ops ⟨[1, 2, 3, 2], List.replicate 12 0⟩
      ⟨[1, 2, 3, 2], List.replicate 12 0⟩ 2 m theta = none := rfl

/-- C5 counterexample: at rank 2 the claim fails.  For x of shape (1, 2)
and freqs of shape (2, 2) the precondition of the claim holds, yet the
view target shape collapses to (1, 2), which has 2 elements while freqs
has 4, so the function raises a RuntimeError instead of returning a
reshaped view of freqs. -/
theorem C5_counterexample :
    (2 ≤ (⟨[1, 2], [(5 : ℚ), 6]⟩ : Tensor ℚ).shape.length
      ∧ (⟨[2, 2], [(1 : ℚ), 2, 3, 4]⟩ : Tensor ℚ).shape
          = [(⟨[1, 2], [(5 : ℚ), 6]⟩ : Tensor ℚ).shape.getD 1 0,
             (⟨[1, 2], [(5 : ℚ), 6]⟩ : Tensor ℚ).shape.getLastD 0])
    ∧ reshape_for_broadcast (⟨[2, 2], [(1 : ℚ), 2, 3, 4]⟩ : Tensor ℚ)
        ⟨[1, 2], [(5 : ℚ), 6]⟩ = Except.error RopeErr.runtimeError := by
  exact ⟨⟨by decide, by decide⟩, rfl⟩

/-- C5 (amended to rank at least 3): for every x of rank at least 3 and
freqs with freqs.shape equal to (x.shape[1], x.shape[-1]),
reshape_for_broadcast returns a tensor of the same rank as x whose shape
is x.shape[1] at axis 1, x.shape[-1] at the last axis and 1 at every
other axis, holding exactly the elements of freqs. -/
theorem C5_reshape_for_broadcast_rank3 {α : Type} (freqs x : Tensor α)
    (h3 : 3 ≤ x.shape.length)
    (hsh : freqs.shape = [x.shape.getD 1 0, x.shape.getLastD 0]) :
    ∃ t : Tensor α, reshape_for_broadcast freqs x = Except.ok t
      ∧ t.data = freqs.data
      ∧ t.shape.length = x.shape.length
      ∧ t.shape.getD 1 0 = x.shape.getD 1 0
      ∧ t.shape.getLastD 0 = x.shape.getLastD 0
      ∧ ∀ i, i < x.shape.length → i ≠ 1 → i ≠ x.shape.length - 1 →
          t.shape.getD i 0 = 1 := by
  obtain ⟨x₀, x₁, sh₂, hx2⟩ : ∃ x₀ x₁ sh₂, x.shape = x₀ :: x₁ :: sh₂ := by
    rcases hxs0 : x.shape with _ | ⟨x₀, tl⟩
    · rw [hxs0] at h3; simp at h3
    · rcases htl : tl with _ | ⟨x₁, sh₂⟩
      · rw [hxs0, htl] at h3; simp at h3
      · exact ⟨x₀, x₁, sh₂, rfl⟩
  obtain ⟨mid, xl, hmid⟩ : ∃ mid xl, sh₂ = mid ++ [xl] := by
    rcases List.eq_nil_or_concat sh₂ with hnil | ⟨L, b, hL⟩
    · rw [hx2, hnil] at h3; simp at h3
    · exact ⟨L, b, by simpa [List.concat_eq_append] using hL⟩
  have hxs : x.shape = x₀ :: x₁ :: (mid ++ [xl]) := by rw [hx2, hmid]
  have hget1 : x.shape.getD 1 0 = x₁ := by rw [hxs]; rfl
  have hlastget : x.shape.getLastD 0 = xl := by
    rw [hxs]
    have h : x₀ :: x₁ :: (mid ++ [xl]) = (x₀ :: x₁ :: mid) ++ [xl] := by simp
    rw [h, List.getLastD_concat]
  have hS : (List.enum x.shape).map
      (fun p => if p.1 = 1 ∨ p.1 = x.shape.length - 1 then p.2 else 1)
      = 1 :: x₁ :: (mid.map (fun _ => 1) ++ [xl]) := by
    conv_lhs => rw [hxs]
    exact enum_map_collapse x₀ x₁ xl mid
  refine ⟨_, reshape_for_broadcast_ok h3 hsh, rfl, ?_, ?_, ?_, ?_⟩
  · simp [hxs]
  · rw [hS, hget1]
    rfl
  · rw [hS, hlastget]
    have h : (1 : ℕ) :: x₁ :: (mid.map (fun _ => 1) ++ [xl])
        = (1 :: x₁ :: mid.map (fun _ => 1)) ++ [xl] := by simp
    rw [h, List.getLastD_concat]
  · intro i hi h1 hlast
    rw [hS]
    have hlen : x.shape.length = mid.length + 3 := by rw [hxs]; simp
    match i with
    | 0 => rfl
    | 1 => exact absurd rfl h1
    | Nat.succ (Nat.succ j) =>
        have hj : j < mid.length := by omega
        simp only [List.getD_cons_succ]
        have hjl : j < (mid.map (fun _ => (1 : ℕ))).length := by simpa using hj
        rw [List.getD_append _ _ _ _ hjl]
        rw [List.getD_eq_getElem _ _ hjl]
        simp

theorem C5_witness :
    ∃ t : Tensor ℚ,
      reshape_for_broadcast (⟨[2, 3], [(1 : ℚ), 2, 3, 4, 5, 6]⟩ : Tensor ℚ)
        ⟨[1, 2, 3], [(0 : ℚ), 0, 0, 0, 0, 0]⟩ = Except.ok t
      ∧ t.data = (⟨[2, 3], [(1 : ℚ), 2, 3, 4, 5, 6]⟩ : Tensor ℚ).data
      ∧ t.shape.length = ([1, 2, 3] : List ℕ).length
      ∧ t.shape.getD 1 0 = ([1, 2, 3] : List ℕ).getD 1 0
      ∧ t.shape.getLastD 0 = ([1, 2, 3] : List ℕ).getLastD 0
      ∧ ∀ i, i < ([1, 2, 3] : List ℕ).length → i ≠ 1 →
          i ≠ ([1, 2, 3] : List ℕ).length - 1 → t.shape.getD i 0 = 1 :=
  C5_reshape_for_broadcast_rank3 ⟨[2, 3], [(1 : ℚ), 2, 3, 4, 5, 6]⟩
    ⟨[1, 2, 3], [(0 : ℚ), 0, 0, 0, 0, 0]⟩ (by decide) (by decide)

/-- C6 counterexample: the claim asserts that under the precondition the
function returns normally; for x of shape (2, 3) and freqs of shape
(3, 3) the precondition holds, no assert fires, and yet the call fails
with a RuntimeError from the final view. -/
theorem C6_counterexample :
    (2 ≤ (⟨[2, 3], [(0 : ℚ), 0, 0, 0, 0, 0]⟩ : Tensor ℚ).shape.length
      ∧ (⟨[3, 3], [(1 : ℚ), 2, 3, 4, 5, 6, 7, 8, 9]⟩ : Tensor ℚ).shape
          = [(⟨[2, 3], [(0 : ℚ), 0, 0, 0, 0, 0]⟩ : Tensor ℚ).shape.getD 1 0,
             (⟨[2, 3], [(0 : ℚ), 0, 0, 0, 0, 0]⟩ : Tensor ℚ).shape.getLastD 0])
    ∧ reshape_for_broadcast
        (⟨[3, 3], [(1 : ℚ), 2, 3, 4, 5, 6, 7, 8, 9]⟩ : Tensor ℚ)
        ⟨[2, 3], [(0 : ℚ), 0, 0, 0, 0, 0]⟩
        = Except.error RopeErr.runtimeError := by
  exact ⟨⟨by decide, by decide⟩, rfl⟩

/-- C6 (amended): reshape_for_broadcast fails with an assertion error
exactly when x has fewer than 2 axes or freqs.shape differs from
(x.shape[1], x.shape[-1]); under the precondition it returns normally
provided x has rank at least 3 (at rank 2 the final view can raise a
RuntimeError, which is not an assertion failure). -/
theorem C6_assertion_iff_and_ok {α : Type} (freqs x : Tensor α) :
    (reshape_for_broadcast freqs x = Except.error RopeErr.assertionError
      ↔ (x.shape.length < 2
          ∨ freqs.shape ≠ [x.shape.getD 1 0, x.shape.getLastD 0]))
    ∧ (freqs.shape = [x.shape.getD 1 0, x.shape.getLastD 0] →
        3 ≤ x.shape.length →
        ∃ t, reshape_for_broadcast freqs x = Except.ok t) :=
  ⟨reshape_for_broadcast_assertion_iff freqs x,
   fun hsh h3 => ⟨_, reshape_for_broadcast_ok h3 hsh⟩⟩

theorem C6_witness :
    ∃ t : Tensor ℚ,
      reshape_for_broadcast (⟨[2, 3], [(1 : ℚ), 2, 3, 4, 5, 6]⟩ : Tensor ℚ)
        ⟨[2, 2, 3], List.replicate 12 (0 : ℚ)⟩ = Except.ok t :=
  (C6_assertion_iff_and_ok (⟨[2, 3], [(1 : ℚ), 2, 3, 4, 5, 6]⟩ : Tensor ℚ)
    ⟨[2, 2, 3], List.replicate 12 (0 : ℚ)⟩).2 (by decide) (by decide)

/-- C7: the result of apply_rotary_emb does not depend on the
max_seq_len argument, which the body never reads; the rotation tables
are built from the sequence length taken from the query shape. -/
theorem C7_max_seq_len_unused [Field α] (ops : ScalarOps α)
    (q k : Tensor α) (hd m₁ m₂ : ℕ) (θ : α) :
    apply_rotary_emb ops q k hd m₁ θ = apply_rotary_emb ops q k hd m₂ θ := rfl

/-- C8: for head_dim 2, theta 10000 and sequence length 1,
apply_rotary_emb returns without raising and acts as the identity:
apply_rotary_emb(q, k, 2, 1) = (q, k). -/
theorem C8_seqlen_one_identity [Field α] (ops : ScalarOps α)
    (q k : Tensor α) (B H Hk : ℕ) (hB : B ≠ 0) (hH : H ≠ 0) (hHk : Hk ≠ 0)
    (hq : q.shape = [B, 1, H, 2]) (hk : k.shape = [B, 1, Hk, 2])
    (hwq : q.wf) (hwk : k.wf) :
    apply_rotary_emb ops q k 2 1 (10000 : α) = some (q, k) :=
  apply_rotary_emb_seqlen_one ops hB hH hHk hq hk hwq hwk 1 10000

theorem C8_witness :
    apply_rotary_emb opsQ ⟨[1, 1, 1, 2], [(3 : ℚ), 4]⟩
      ⟨[1, 1, 1, 2], [(5 : ℚ), 6]⟩ 2 1 (10000 : ℚ)
      = some (⟨[1, 1, 1, 2], [(3 : ℚ), 4]⟩, ⟨[1, 1, 1, 2], [(5 : ℚ), 6]⟩) :=
  C8_seqlen_one_identity opsQ ⟨[1, 1, 1, 2], [(3 : ℚ), 4]⟩
    ⟨[1, 1, 1, 2], [(5 : ℚ), 6]⟩ 1 1 1 (by decide) (by decide) (by decide)
    (by decide) (by decide) (by decide) (by decide)

/-- C9: whenever apply_rotary_emb returns on well-formed inputs, the
squared norm of every output (real, imag) feature pair, read off the
flat data at positions 2 i and 2 i + 1, equals the squared norm of the
corresponding input pair. -/
theorem C9_pair_norms_preserved [Field α] (ops : ScalarOps α)
    (q k qo ko : Tensor α) (hd m : ℕ) (θ : α) (hwq : q.wf) (hwk : k.wf)
    (h : apply_rotary_emb ops q k hd m θ = some (qo, ko)) :
    (∀ i, (qo.data.getD (2 * i) 0) ^ 2 + (qo.data.getD (2 * i + 1) 0) ^ 2
        = (q.data.getD (2 * i) 0) ^ 2 + (q.data.getD (2 * i + 1) 0) ^ 2)
    ∧ (∀ i, (ko.data.getD (2 * i) 0) ^ 2 + (ko.data.getD (2 * i + 1) 0) ^ 2
        = (k.data.getD (2 * i) 0) ^ 2 + (k.data.getD (2 * i + 1) 0) ^ 2) := by
  obtain ⟨hqo, hko⟩ := apply_rotary_emb_eq_inputs hwq hwk h
  subst hqo
  subst hko
  exact ⟨fun i => rfl, fun i => rfl⟩

theorem C9_witness :
    (∀ i, (((⟨[1, 1, 1, 2], [(3 : ℚ), 4]⟩ : Tensor ℚ).data.getD (2 * i) 0) ^ 2
          + ((⟨[1, 1, 1, 2], [(3 : ℚ), 4]⟩ : Tensor ℚ).data.getD (2 * i + 1) 0) ^ 2
        = ((⟨[1, 1, 1, 2], [(3 : ℚ), 4]⟩ : Tensor ℚ).data.getD (2 * i) 0) ^ 2
          + ((⟨[1, 1, 1, 2], [(3 : ℚ), 4]⟩ : Tensor ℚ).data.getD (2 * i + 1) 0) ^ 2))
    ∧ (∀ i, (((⟨[1, 1, 1, 2], [(5 : ℚ), 6]⟩ : Tensor ℚ).data.getD (2 * i) 0) ^ 2
          + ((⟨[1, 1, 1, 2], [(5 : ℚ), 6]⟩ : Tensor ℚ).data.getD (2 * i + 1) 0) ^ 2
        = ((⟨[1, 1, 1, 2], [(5 : ℚ), 6]⟩ : Tensor ℚ).data.getD (2 * i) 0) ^ 2
          + ((⟨[1, 1, 1, 2], [(5 : ℚ), 6]⟩ : Tensor ℚ).data.getD (2 * i + 1) 0) ^ 2)) :=
  C9_pair_norms_preserved opsQ ⟨[1, 1, 1, 2], [(3 : ℚ), 4]⟩
    ⟨[1, 1, 1, 2], [(5 : ℚ), 6]⟩ ⟨[1, 1, 1, 2], [(3 : ℚ), 4]⟩
    ⟨[1, 1, 1, 2], [(5 : ℚ), 6]⟩ 2 1 10000 (by decide) (by decide) rfl

/-- C10: apply_rotary_emb is deterministic and referentially transparent:
two calls with equal arguments produce equal results. -/
theorem C10_deterministic [Field α] (ops₁ ops₂ : ScalarOps α)
    (q₁ q₂ k₁ k₂ : Tensor α) (hd₁ hd₂ m₁ m₂ : ℕ) (θ₁ θ₂ : α)
    (hops : ops₁ = ops₂) (hq : q₁ = q₂) (hk : k₁ = k₂) (hhd : hd₁ = hd₂)
    (hm : m₁ = m₂) (hθ : θ₁ = θ₂) :
    apply_rotary_emb ops₁ q₁ k₁ hd₁ m₁ θ₁
      = apply_rotary_emb ops₂ q₂ k₂ hd₂ m₂ θ₂ := by
  subst hops
  subst hq
  subst hk
  subst hhd
  subst hm
  subst hθ
  rfl

theorem C10_witness :
    apply_rotary_emb opsQ ⟨[1, 1, 1, 2], [(3 : ℚ), 4]⟩
        ⟨[1, 1, 1, 2], [(5 : ℚ), 6]⟩ 2 4 (10000 : ℚ)
      = apply_rotary_emb opsQ ⟨[1, 1, 1, 2], [(3 : ℚ), 4]⟩
        ⟨[1, 1, 1, 2], [(5 : ℚ), 6]⟩ 2 4 (10000 : ℚ) :=
  C10_deterministic opsQ opsQ ⟨[1, 1, 1, 2], [(3 : ℚ), 4]⟩
    ⟨[1, 1, 1, 2], [(3 : ℚ), 4]⟩ ⟨[1, 1, 1, 2], [(5 : ℚ), 6]⟩
    ⟨[1, 1, 1, 2], [(5 : ℚ), 6]⟩ 2 2 4 4 10000 10000
    rfl rfl rfl rfl rfl rfl
